import Mathlib

/-!
Verification of the celerix-store engine, vault codec and line-protocol router.

The Go store keeps `data map[string]map[string]map[string]any` guarded by a
reader/writer lock.  Since every claim below is about the sequential
observable behaviour of single operations, each operation is embedded as a
pure state transformer on an association-list model of the nested maps;
values stay abstract (`V` plays the role of Go's `any`).
-/

/-- Lookup in an association list, modelling Go map indexing `m[k]` with the
comma-ok idiom: `none` models a missing key. -/
def mget {κ ν : Type} [DecidableEq κ] : List (κ × ν) → κ → Option ν
  | [], _ => none
  | e :: rest, q => if q = e.1 then some e.2 else mget rest q

/-- Go map assignment `m[k] = v`: replace the binding in place, or append a
fresh binding when the key is absent. -/
def mput {κ ν : Type} [DecidableEq κ] : List (κ × ν) → κ → ν → List (κ × ν)
  | [], q, x => [(q, x)]
  | e :: rest, q, x => if q = e.1 then (q, x) :: rest else e :: mput rest q x

/-- Go `delete(m, k)`: remove the binding for `k` when present, no-op otherwise. -/
def mdel {κ ν : Type} [DecidableEq κ] : List (κ × ν) → κ → List (κ × ν)
  | [], _ => []
  | e :: rest, q => if q = e.1 then mdel rest q else e :: mdel rest q

/-- One app's key-value map (`map[string]any`). -/
abbrev AppData (V : Type) := List (String × V)

/-- One persona's subtree (`map[string]map[string]any`). -/
abbrev PersonaData (V : Type) := List (String × AppData V)

/-- The three-tier store map, `[personaID][appID][key]value`. -/
abbrev StoreData (V : Type) := List (String × PersonaData V)

/-- The sentinel errors of `internal/engine/store.go`. -/
inductive StoreErr
  | personaNotFound
  | appNotFound
  | keyNotFound
deriving DecidableEq, Repr

/-- The `errors.New` message of each sentinel, as printed by `ERR <err>`. -/
def StoreErr.message : StoreErr → String
  | .personaNotFound => "persona not found"
  | .appNotFound => "app not found"
  | .keyNotFound => "key not found"

namespace MemStore

/-- `MemStore.Get` (memstore.go): three nested comma-ok lookups, each failure
mapped to its own sentinel error. -/
def Get {V : Type} (s : StoreData V) (personaID appID key : String) : Except StoreErr V :=
  match mget s personaID with
  | none => .error .personaNotFound
  | some persona =>
    match mget persona appID with
    | none => .error .appNotFound
    | some app =>
      match mget app key with
      | none => .error .keyNotFound
      | some val => .ok val

/-- `MemStore.Set` (memstore.go): auto-vivify missing persona and app maps
(`m.data[personaID] == nil` checks), then install the value.  The Go method
always returns a nil error; the second component records that. -/
def Set {V : Type} (s : StoreData V) (personaID appID key : String) (val : V) :
    StoreData V × Option StoreErr :=
  let persona := (mget s personaID).getD []
  let app := (mget persona appID).getD []
  (mput s personaID (mput persona appID (mput app key val)), none)

/-- `MemStore.Delete` (memstore.go): remove the key only when persona and app
both exist, otherwise leave the store untouched; always a nil error. -/
def Delete {V : Type} (s : StoreData V) (personaID appID key : String) :
    StoreData V × Option StoreErr :=
  match mget s personaID with
  | none => (s, none)
  | some persona =>
    match mget persona appID with
    | none => (s, none)
    | some app => (mput s personaID (mput persona appID (mdel app key)), none)

/-- `MemStore.GetPersonas`: the key set of the outer map (list order stands in
for Go's unspecified map iteration order). -/
def GetPersonas {V : Type} (s : StoreData V) : List String :=
  s.map (fun e => e.1)

/-- `MemStore.GetApps`: keys of one persona's subtree; empty when the persona
is absent (the Go method returns a nil slice and nil error). -/
def GetApps {V : Type} (s : StoreData V) (personaID : String) : List String :=
  ((mget s personaID).getD []).map (fun e => e.1)

/-- `MemStore.GetAppStore`: copy of one app map; both a missing persona and a
missing app yield `ErrAppNotFound` in the source. -/
def GetAppStore {V : Type} (s : StoreData V) (personaID appID : String) :
    Except StoreErr (AppData V) :=
  match mget s personaID with
  | none => .error .appNotFound
  | some persona =>
    match mget persona appID with
    | none => .error .appNotFound
    | some app => .ok (app.map (fun e => (e.1, e.2)))

/-- `MemStore.DumpApp`: for every persona holding `appID`, a copy of that app
map, keyed by persona. -/
def DumpApp {V : Type} (s : StoreData V) (appID : String) : List (String × AppData V) :=
  s.foldr
    (fun e acc =>
      match mget e.2 appID with
      | some app => (e.1, app.map (fun kv => (kv.1, kv.2))) :: acc
      | none => acc)
    []

/-- `MemStore.GetGlobal`: first persona (in iteration order) whose `appID`
subtree holds `key`. -/
def GetGlobal {V : Type} (s : StoreData V) (appID key : String) :
    Except StoreErr (V × String) :=
  match s with
  | [] => .error .keyNotFound
  | e :: rest =>
    match mget e.2 appID with
    | some app =>
      match mget app key with
      | some val => .ok (val, e.1)
      | none => GetGlobal rest appID key
    | none => GetGlobal rest appID key

/-- `MemStore.copyPersonaData`: deep copy of one persona's subtree (the loop
rebuilds the two map levels; values are aliased). -/
def copyPersonaData {V : Type} (s : StoreData V) (personaID : String) :
    Option (PersonaData V) :=
  match mget s personaID with
  | none => none
  | some persona => some (persona.map (fun e => (e.1, e.2.map (fun kv => (kv.1, kv.2)))))

/-- Result of `MemStore.Move`: the new store, the returned error, and the
snapshots handed to the background persister (empty on the error paths, which
return before any `SavePersona` dispatch). -/
structure MoveResult (V : Type) where
  store : StoreData V
  err : Option StoreErr
  saves : List (String × Option (PersonaData V))

/-- `MemStore.Move` (memstore.go): validate the full source path, returning
the matching sentinel with the store untouched; then `delete(srcA, key)`
(visible through the store, since `srcA` aliases the stored app map),
auto-vivify the destination path on the updated store, install the value, and
snapshot both personas for the persister. -/
def Move {V : Type} (s : StoreData V) (srcPersona dstPersona appID key : String) :
    MoveResult V :=
  match mget s srcPersona with
  | none => ⟨s, some .personaNotFound, []⟩
  | some srcP =>
    match mget srcP appID with
    | none => ⟨s, some .appNotFound, []⟩
    | some srcA =>
      match mget srcA key with
      | none => ⟨s, some .keyNotFound, []⟩
      | some val =>
        let s1 := mput s srcPersona (mput srcP appID (mdel srcA key))
        let dstP := (mget s1 dstPersona).getD []
        let dstA := (mget dstP appID).getD []
        let s2 := mput s1 dstPersona (mput dstP appID (mput dstA key val))
        ⟨s2, none, [(srcPersona, copyPersonaData s2 srcPersona),
                    (dstPersona, copyPersonaData s2 dstPersona)]⟩

end MemStore

/-!
Line-protocol router (`Router.handleConnection`).

One loop iteration is embedded as a pure step on the store: the line that was
read (already stripped of its trailing newline by the model's caller is fine,
since `TrimSpace` removes it anyway), the replies written to the connection,
and whether the handler returns (`QUIT`).  `encoding/json` is standard
library, not repository code, so the router model is parametrised by a codec
record standing for `json.Unmarshal` / `json.Marshal` (`none` models a
marshal/parse error). -/

/-- The Latin-1 white space set of Go's `unicode.IsSpace`
(space, `\t`, `\n`, vertical tab, form feed, `\r`, NEL, NBSP). -/
def goIsSpace (c : Char) : Bool :=
  c = ' ' || c = '\t' || c = '\n' || c = '\x0b' || c = '\x0c' || c = '\r' ||
    c = '\x85' || c = '\xa0'

/-- Go `strings.TrimSpace`: drop leading and trailing white space. -/
def goTrimSpace (s : String) : String :=
  ⟨((s.data.dropWhile goIsSpace).reverse.dropWhile goIsSpace).reverse⟩

/-- Worker for `strings.Fields`: split on runs of white space. -/
def fieldsGo : List Char → List Char → List String
  | [], acc => if acc = [] then [] else [⟨acc.reverse⟩]
  | c :: rest, acc =>
    if goIsSpace c then
      if acc = [] then fieldsGo rest [] else ⟨acc.reverse⟩ :: fieldsGo rest []
    else fieldsGo rest (c :: acc)

/-- Go `strings.Fields`. -/
def goFields (s : String) : List String := fieldsGo s.data []

/-- ASCII fragment of Go `strings.ToUpper` on one character (all command
words of the protocol are ASCII). -/
def goToUpperChar (c : Char) : Char :=
  if 'a' ≤ c ∧ c ≤ 'z' then Char.ofNat (c.toNat - 32) else c

/-- Go `strings.ToUpper` (ASCII fragment). -/
def goToUpper (s : String) : String := ⟨s.data.map goToUpperChar⟩

/-- Go `strings.Join(xs, " ")`. -/
def joinSpace : List String → String
  | [] => ""
  | [x] => x
  | x :: rest => x ++ " " ++ joinSpace rest

/-- Stand-in for `encoding/json` as used by the router: `parse` is
`json.Unmarshal` into `any` (`none` = malformed JSON), the marshal fields are
`json.Marshal` at the respective Go types (`none` = marshal error). -/
structure Codec (V : Type) where
  parse : String → Option V
  marshal : V → Option String
  marshalStrings : List String → Option String
  marshalApp : AppData V → Option String
  marshalDump : List (String × AppData V) → Option String
  marshalGlobal : String → V → Option String

/-- Effect of one iteration of the router's command loop: the store afterwards,
the reply lines written to the connection, and whether the handler returned. -/
structure RouterOut (V : Type) where
  store : StoreData V
  replies : List String
  closed : Bool

/-- The `switch command` body of `Router.handleConnection`, in source order.
Truncated commands produce no reply (`continue`); unknown commands likewise. -/
def routerDispatch {V : Type} (c : Codec V) (st : StoreData V) (command : String)
    (parts : List String) : RouterOut V :=
  if command = "GET" then
    match parts with
    | _ :: p :: a :: k :: _ =>
      match MemStore.Get st p a k with
      | .error e => ⟨st, ["ERR " ++ e.message], false⟩
      | .ok v =>
        match c.marshal v with
        | none => ⟨st, ["ERR internal error"], false⟩
        | some j => ⟨st, ["OK " ++ j], false⟩
    | _ => ⟨st, [], false⟩
  else if command = "SET" then
    match parts with
    | _ :: p :: a :: k :: v0 :: vrest =>
      match c.parse (joinSpace (v0 :: vrest)) with
      | none => ⟨st, ["ERR invalid json value"], false⟩
      | some v =>
        let res := MemStore.Set st p a k v
        match res.2 with
        | some e => ⟨res.1, ["ERR " ++ e.message], false⟩
        | none => ⟨res.1, ["OK"], false⟩
    | _ => ⟨st, [], false⟩
  else if command = "DEL" then
    match parts with
    | _ :: p :: a :: k :: _ =>
      let res := MemStore.Delete st p a k
      match res.2 with
      | some e => ⟨res.1, ["ERR " ++ e.message], false⟩
      | none => ⟨res.1, ["OK"], false⟩
    | _ => ⟨st, [], false⟩
  else if command = "LIST_PERSONAS" then
    match c.marshalStrings (MemStore.GetPersonas st) with
    | none => ⟨st, ["ERR internal error"], false⟩
    | some j => ⟨st, ["OK " ++ j], false⟩
  else if command = "LIST_APPS" then
    match parts with
    | _ :: p :: _ =>
      match c.marshalStrings (MemStore.GetApps st p) with
      | none => ⟨st, ["ERR internal error"], false⟩
      | some j => ⟨st, ["OK " ++ j], false⟩
    | _ => ⟨st, [], false⟩
  else if command = "DUMP" then
    match parts with
    | _ :: p :: a :: _ =>
      match MemStore.GetAppStore st p a with
      | .error e => ⟨st, ["ERR " ++ e.message], false⟩
      | .ok m =>
        match c.marshalApp m with
        | none => ⟨st, ["ERR internal error"], false⟩
        | some j => ⟨st, ["OK " ++ j], false⟩
    | _ => ⟨st, [], false⟩
  else if command = "DUMP_APP" then
    match parts with
    | _ :: a :: _ =>
      match c.marshalDump (MemStore.DumpApp st a) with
      | none => ⟨st, ["ERR internal error"], false⟩
      | some j => ⟨st, ["OK " ++ j], false⟩
    | _ => ⟨st, [], false⟩
  else if command = "GET_GLOBAL" then
    match parts with
    | _ :: a :: k :: _ =>
      match MemStore.GetGlobal st a k with
      | .error e => ⟨st, ["ERR " ++ e.message], false⟩
      | .ok vp =>
        match c.marshalGlobal vp.2 vp.1 with
        | none => ⟨st, ["ERR internal error"], false⟩
        | some j => ⟨st, ["OK " ++ j], false⟩
    | _ => ⟨st, [], false⟩
  else if command = "MOVE" then
    match parts with
    | _ :: sp :: dp :: a :: k :: _ =>
      let res := MemStore.Move st sp dp a k
      match res.err with
      | some e => ⟨res.store, ["ERR " ++ e.message], false⟩
      | none => ⟨res.store, ["OK"], false⟩
    | _ => ⟨st, [], false⟩
  else if command = "PING" then ⟨st, ["PONG"], false⟩
  else if command = "QUIT" then ⟨st, [], true⟩
  else ⟨st, [], false⟩

/-- One iteration of `Router.handleConnection` on the line just read:
`TrimSpace`, `Fields`, skip empty lines, upper-case token 0, dispatch. -/
def routerStep {V : Type} (c : Codec V) (st : StoreData V) (line : String) :
    RouterOut V :=
  match goFields (goTrimSpace line) with
  | [] => ⟨st, [], false⟩
  | cmd :: args => routerDispatch c st (goToUpper cmd) (cmd :: args)

/-- Concrete codec for the router witness: `parse` accepts exactly the string
rejoined by the witness line, everything else is rejected. -/
def witnessCodec : Codec Nat where
  parse := fun s => if s = "[1, 2]" then some 12 else none
  marshal := fun _ => none
  marshalStrings := fun _ => none
  marshalApp := fun _ => none
  marshalDump := fun _ => none
  marshalGlobal := fun _ _ => none

/-!
Aliasing model for C9.

Go maps are reference values, so "the returned map is freshly allocated" is a
heap property.  Here app maps (`map[string]any`) live in an explicit heap of
cells addressed by `Nat`; the store's inner tier holds cell references.
`GetAppStore`/`DumpApp` run their copy loops into freshly allocated cells, so
mutating a returned cell must not change anything a store reference reaches. -/

/-- Heap of allocated `map[string]any` objects; a `Nat` is a Go map reference. -/
abbrev Heap (V : Type) := List (AppData V)

/-- Dereference a heap cell (out-of-range only happens outside `HStore.wf`). -/
def heapGet {V : Type} : Heap V → Nat → AppData V
  | [], _ => []
  | cell :: _, 0 => cell
  | _ :: rest, n + 1 => heapGet rest n

/-- Overwrite the contents of one heap cell: an arbitrary in-place map
mutation (insert, delete or replace of any entries) by the caller. -/
def heapSet {V : Type} : Heap V → Nat → AppData V → Heap V
  | [], _, _ => []
  | _ :: rest, 0, cell => cell :: rest
  | c :: rest, n + 1, cell => c :: heapSet rest n cell

/-- The store with explicit map identities: `data` maps persona and app IDs
to a reference of the heap cell holding that app map. -/
structure HStore (V : Type) where
  heap : Heap V
  data : List (String × List (String × Nat))

/-- Well-formedness: every app-map reference reachable from `data` points
into the heap. -/
def HStore.wf {V : Type} (st : HStore V) : Bool :=
  st.data.all (fun pe => pe.2.all (fun ae => decide (ae.2 < st.heap.length)))

/-- `MemStore.Get` through the heap. -/
def HStore.get {V : Type} (st : HStore V) (personaID appID key : String) :
    Except StoreErr V :=
  match mget st.data personaID with
  | none => .error .personaNotFound
  | some persona =>
    match mget persona appID with
    | none => .error .appNotFound
    | some r =>
      match mget (heapGet st.heap r) key with
      | none => .error .keyNotFound
      | some v => .ok v

/-- `MemStore.GetAppStore` through the heap: the `copy := make(...)` loop
allocates a fresh cell and rebuilds the entries there (an entry-wise rebuild
is the identity on cell contents); the returned value is the fresh
reference. -/
def HStore.getAppStore {V : Type} (st : HStore V) (personaID appID : String) :
    Except StoreErr Nat × HStore V :=
  match mget st.data personaID with
  | none => (.error .appNotFound, st)
  | some persona =>
    match mget persona appID with
    | none => (.error .appNotFound, st)
    | some r =>
      (.ok st.heap.length, ⟨st.heap ++ [heapGet st.heap r], st.data⟩)

/-- Loop body of `MemStore.DumpApp` through the heap: one fresh `appCopy`
cell per persona that holds `appID` (again the entry-wise copy loop is the
identity on cell contents; what matters is the fresh allocation). -/
def dumpAppGo {V : Type} (appID : String) :
    List (String × List (String × Nat)) → Heap V → List (String × Nat) × Heap V
  | [], h => ([], h)
  | pe :: rest, h =>
    match mget pe.2 appID with
    | some r =>
      let tail := dumpAppGo appID rest (h ++ [heapGet h r])
      ((pe.1, h.length) :: tail.1, tail.2)
    | none => dumpAppGo appID rest h

/-- `MemStore.DumpApp` through the heap. -/
def HStore.dumpApp {V : Type} (st : HStore V) (appID : String) :
    List (String × Nat) × HStore V :=
  let res := dumpAppGo appID st.data st.heap
  (res.1, ⟨res.2, st.data⟩)

/-- A caller mutating the map behind reference `r` (the store's own `data`
references are untouched: Go callers only hold the returned map value). -/
def HStore.mutate {V : Type} (st : HStore V) (r : Nat) (cell : AppData V) : HStore V :=
  ⟨heapSet st.heap r cell, st.data⟩

/-!
Vault codec (`internal/vault/crypto.go`).

`Encrypt`/`Decrypt` call into Go's standard library: `crypto/aes`,
`crypto/cipher` (GCM) and `fmt`.  Those are embedded concretely below —
AES with its real S-box, key schedule and rounds, GCM with GHASH over
GF(2^128), and the `fmt.Sscanf("%x")` scanning discipline `Decrypt` uses for
hex decoding.  Bytes are `Nat` kept below 256 (Go strings are byte strings,
so plaintexts are `List Nat` too); the random nonce drawn by `Encrypt` is an
explicit argument. -/

/-- Byte-wise XOR of two equal-role byte strings (`zipWith` truncates to the
shorter one, which never happens on the well-formed calls below). -/
def xorWord (a b : List Nat) : List Nat := List.zipWith (fun x y => x ^^^ y) a b

/-- Big-endian bytes to number. -/
def bytesToNat (bs : List Nat) : Nat := bs.foldl (fun n b => n * 256 + b) 0

/-- `count` big-endian bytes of `v` (each below 256 by construction). -/
def natToBytes : Nat → Nat → List Nat
  | 0, _ => []
  | n + 1, v => natToBytes n (v / 256) ++ [v % 256]

/-- The AES S-box (FIPS-197 figure 7). -/
def sboxTable : List Nat :=
  [99, 124, 119, 123, 242, 107, 111, 197, 48, 1, 103, 43, 254, 215, 171, 118,
   202, 130, 201, 125, 250, 89, 71, 240, 173, 212, 162, 175, 156, 164, 114, 192,
   183, 253, 147, 38, 54, 63, 247, 204, 52, 165, 229, 241, 113, 216, 49, 21,
   4, 199, 35, 195, 24, 150, 5, 154, 7, 18, 128, 226, 235, 39, 178, 117,
   9, 131, 44, 26, 27, 110, 90, 160, 82, 59, 214, 179, 41, 227, 47, 132,
   83, 209, 0, 237, 32, 252, 177, 91, 106, 203, 190, 57, 74, 76, 88, 207,
   208, 239, 170, 251, 67, 77, 51, 133, 69, 249, 2, 127, 80, 60, 159, 168,
   81, 163, 64, 143, 146, 157, 56, 245, 188, 182, 218, 33, 16, 255, 243, 210,
   205, 12, 19, 236, 95, 151, 68, 23, 196, 167, 126, 61, 100, 93, 25, 115,
   96, 129, 79, 220, 34, 42, 144, 136, 70, 238, 184, 20, 222, 94, 11, 219,
   224, 50, 58, 10, 73, 6, 36, 92, 194, 211, 172, 98, 145, 149, 228, 121,
   231, 200, 55, 109, 141, 213, 78, 169, 108, 86, 244, 234, 101, 122, 174, 8,
   186, 120, 37, 46, 28, 166, 180, 198, 232, 221, 116, 31, 75, 189, 139, 138,
   112, 62, 181, 102, 72, 3, 246, 14, 97, 53, 87, 185, 134, 193, 29, 158,
   225, 248, 152, 17, 105, 217, 142, 148, 155, 30, 135, 233, 206, 85, 40, 223,
   140, 161, 137, 13, 191, 230, 66, 104, 65, 153, 45, 15, 176, 84, 187, 22]

/-- S-box substitution of one byte. -/
def subByte (b : Nat) : Nat := sboxTable.getD (b % 256) 0

/-- Multiplication by x in GF(2^8) modulo the AES polynomial 0x11b. -/
def xtime (b : Nat) : Nat := (if b < 128 then 2 * b else (2 * b) ^^^ 283) % 256

/-- AES round constants: rcon i = x^i in GF(2^8). -/
def rconByte : Nat → Nat
  | 0 => 1
  | n + 1 => xtime (rconByte n)

/-- Rotate a 4-byte word left by one byte. -/
def rotWord : List Nat → List Nat
  | [] => []
  | a :: rest => rest ++ [a]

/-- S-box substitution of each byte of a word. -/
def subWord (w : List Nat) : List Nat := w.map subByte

/-- Chunk a byte string into 4-byte words. -/
def toWords : List Nat → List (List Nat)
  | a :: b :: c :: d :: rest => [a, b, c, d] :: toWords rest
  | _ => []

/-- The `temp` word of one FIPS-197 key-expansion step at position
i = `w.length`: RotWord/SubWord/rcon when i is a multiple of Nk, an extra
SubWord for Nk > 6 when i mod Nk = 4, the previous word otherwise. -/
def ksTemp (nk : Nat) (w : List (List Nat)) : List Nat :=
  if w.length % nk = 0 then
    xorWord (subWord (rotWord (w.getD (w.length - 1) [])))
      [rconByte (w.length / nk - 1), 0, 0, 0]
  else if 6 < nk ∧ w.length % nk = 4 then subWord (w.getD (w.length - 1) [])
  else w.getD (w.length - 1) []

/-- FIPS-197 key-expansion loop, producing one word per step: word i is
w[i-Nk] xor temp. -/
def ksLoop (nk : Nat) : Nat → List (List Nat) → List (List Nat)
  | 0, w => w
  | n + 1, w => ksLoop nk n (w ++ [xorWord (w.getD (w.length - nk) []) (ksTemp nk w)])

/-- FIPS-197 KeyExpansion: 4(Nr+1) = 4(Nk+7) words from Nk initial words. -/
def expandKey (key : List Nat) : List (List Nat) :=
  ksLoop (key.length / 4) (4 * (key.length / 4 + 7) - key.length / 4) (toWords key)

/-- Round key r: words 4r .. 4r+3, flattened to 16 bytes. -/
def roundKey (w : List (List Nat)) (r : Nat) : List Nat := ((w.drop (4 * r)).take 4).flatten

/-- SubBytes on the flat, column-major 16-byte state. -/
def subBytes (s : List Nat) : List Nat := s.map subByte

/-- ShiftRows as the standard flat column-major index permutation. -/
def shiftRows (s : List Nat) : List Nat :=
  [0, 5, 10, 15, 4, 9, 14, 3, 8, 13, 2, 7, 12, 1, 6, 11].map (fun i => s.getD i 0)

/-- MixColumns on one column. -/
def mixCol : List Nat → List Nat
  | [a, b, c, d] =>
    [xtime a ^^^ (xtime b ^^^ b) ^^^ c ^^^ d,
     a ^^^ xtime b ^^^ (xtime c ^^^ c) ^^^ d,
     a ^^^ b ^^^ xtime c ^^^ (xtime d ^^^ d),
     (xtime a ^^^ a) ^^^ b ^^^ c ^^^ xtime d]
  | s => s

/-- MixColumns on the flat state. -/
def mixColumns (s : List Nat) : List Nat := ((toWords s).map mixCol).flatten

/-- The Nr-1 middle rounds. -/
def aesMainRounds (rks : List (List Nat)) (s : List Nat) : List Nat :=
  match rks with
  | [] => s
  | rk :: rest => aesMainRounds rest (xorWord (mixColumns (shiftRows (subBytes s))) rk)

/-- The AES block cipher (`aes.NewCipher(key).Encrypt`): Nr = Nk + 6 rounds. -/
def aesEncryptBlock (key input : List Nat) : List Nat :=
  let w := expandKey key
  let nr := key.length / 4 + 6
  let s1 := xorWord input (roundKey w 0)
  let s2 := aesMainRounds ((List.range (nr - 1)).map (fun i => roundKey w (i + 1))) s1
  xorWord (shiftRows (subBytes s2)) (roundKey w nr)

/-- One step of the NIST SP 800-38D right-shift GF(2^128) multiplication. -/
def gmulStep (v : Nat) : Nat :=
  if v % 2 = 1 then (v / 2) ^^^ (225 * 2 ^ 120) else v / 2

/-- 128 iterations of the shift-and-add multiplication loop. -/
def gmulLoop : Nat → Nat → Nat → Nat → Nat
  | 0, _, _, z => z
  | n + 1, x, v, z =>
    gmulLoop n ((x * 2) % 2 ^ 128) (gmulStep v)
      (if 2 ^ 127 ≤ x then z ^^^ v else z)

/-- GF(2^128) multiplication in GCM's reflected-bit convention. -/
def gfMul (x y : Nat) : Nat := gmulLoop 128 (x % 2 ^ 128) (y % 2 ^ 128) 0

/-- GHASH: fold the blocks through xor-then-multiply-by-H. -/
def ghash (h : Nat) (blocks : List (List Nat)) : Nat :=
  blocks.foldl (fun y b => gfMul (y ^^^ bytesToNat b) h) 0

/-- Zero-pad a final partial block to 16 bytes. -/
def padBlock (b : List Nat) : List Nat := b ++ List.replicate (16 - b.length) 0

/-- Chunk data into zero-padded 16-byte blocks (`n` = number of chunks). -/
def toBlocks : Nat → List Nat → List (List Nat)
  | 0, _ => []
  | n + 1, data => padBlock (data.take 16) :: toBlocks n (data.drop 16)

/-- GHASH input for empty AAD: the padded ciphertext blocks followed by the
length block (64-bit AAD bit length 0, then the 64-bit ciphertext bit
length). -/
def ghashBlocks (ct : List Nat) : List (List Nat) :=
  toBlocks ((ct.length + 15) / 16) ct ++ [natToBytes 16 (ct.length * 8)]

/-- Pre-counter block for a 12-byte nonce: nonce followed by the 32-bit 1. -/
def j0 (nonce : List Nat) : List Nat := nonce ++ [0, 0, 0, 1]

/-- Increment the rightmost 32 bits of a counter block. -/
def inc32 (block : List Nat) : List Nat :=
  block.take 12 ++ natToBytes 4 ((bytesToNat (block.drop 12) + 1) % 2 ^ 32)

/-- GCTR keystream application, one 16-byte counter block per chunk. -/
def gctrGo (key : List Nat) : Nat → List Nat → List Nat → List Nat
  | 0, _, _ => []
  | n + 1, cb, data =>
    xorWord (data.take 16) (aesEncryptBlock key cb) ++
      gctrGo key n (inc32 cb) (data.drop 16)

/-- The CTR layer of GCM starting at inc32(J0); GCM decryption applies the
very same function, so it is its own inverse. -/
def gcmCTR (key nonce data : List Nat) : List Nat :=
  gctrGo key ((data.length + 15) / 16) (inc32 (j0 nonce)) data

/-- The GCM authentication tag over the ciphertext (empty AAD):
E(K, J0) xor GHASH_H(ct). -/
def gcmTag (key nonce ct : List Nat) : List Nat :=
  let h := bytesToNat (aesEncryptBlock key (List.replicate 16 0))
  xorWord (natToBytes 16 (ghash h (ghashBlocks ct))) (aesEncryptBlock key (j0 nonce))

/-- `gcm.Seal(nonce, nonce, plaintext, nil)`: nonce, ciphertext, 16-byte tag. -/
def gcmSeal (key nonce plaintext : List Nat) : List Nat :=
  let ct := gcmCTR key nonce plaintext
  nonce ++ ct ++ gcmTag key nonce ct

/-- `gcm.Open(nil, nonce, data, nil)`: reject when shorter than the tag,
split off the tag, recompute it over the ciphertext, and decrypt on match
(`none` is Go's "cipher: message authentication failed"). -/
def gcmOpen (key nonce data : List Nat) : Option (List Nat) :=
  if data.length < 16 then none
  else
    let ct := data.take (data.length - 16)
    let tag := data.drop (data.length - 16)
    if gcmTag key nonce ct = tag then some (gcmCTR key nonce ct) else none

/-- Lowercase hex digit, as produced by Go's `%x`. -/
def hexDigitChar (n : Nat) : Char := "0123456789abcdef".data.getD n 'x'

/-- The character list of `fmt.Sprintf("%x", bytes)`. -/
def hexChars (bs : List Nat) : List Char :=
  bs.foldr (fun b acc => hexDigitChar (b / 16) :: hexDigitChar (b % 16) :: acc) []

/-- `fmt.Sprintf("%x", bytes)`. -/
def hexEncode (bs : List Nat) : String := ⟨hexChars bs⟩

/-- The hex digits accepted by `fmt`'s scanner. -/
def isHexDigit (c : Char) : Bool :=
  ( '0' ≤ c && c ≤ '9') || ( 'a' ≤ c && c ≤ 'f') || ( 'A' ≤ c && c ≤ 'F')

/-- Value of one hex digit. -/
def hexVal (c : Char) : Nat :=
  if '0' ≤ c && c ≤ '9' then c.toNat - 48
  else if 'a' ≤ c && c ≤ 'f' then c.toNat - 87
  else if 'A' ≤ c && c ≤ 'F' then c.toNat - 55
  else 0

/-- The pair-scanning loop of `fmt`'s `%x` into `[]byte` (`ss.hexString` /
`ss.hexByte`): consume hex digits two at a time; a non-hex character stops
the scan (trailing input is ignored by `Sscanf`); a lone trailing digit is
"odd length hex string" (or EOF when the input ends); an empty scan is
"no hex data for %x string". -/
def scanHexPairs : List Char → List Nat → Except String (List Nat)
  | [], acc => if acc = [] then .error "no hex data for %x string" else .ok acc.reverse
  | c :: rest, acc =>
    if isHexDigit c then
      match rest with
      | [] => .error "unexpected EOF"
      | c2 :: rest2 =>
        if isHexDigit c2 then scanHexPairs rest2 ((hexVal c * 16 + hexVal c2) :: acc)
        else .error "odd length hex string"
    else if acc = [] then .error "no hex data for %x string" else .ok acc.reverse

/-- `fmt.Sscanf(s, "%x", &bytes)`: skip leading blanks, fail "unexpected EOF"
on an exhausted input, then run the pair scan.  (Newlines in the input would
raise a different `Sscanf` error; hex output never contains them, and every
claim below only needs "some error" there.) -/
def sscanfHexBytes (s : String) : Except String (List Nat) :=
  let t := s.data.dropWhile (fun c => c = ' ' || c = '\t')
  if t = [] then .error "unexpected EOF" else scanHexPairs t []

/-- `aes.NewCipher` accepts exactly the AES-128/192/256 key sizes. -/
def aesKeyOk (key : List Nat) : Bool :=
  key.length = 16 || key.length = 24 || key.length = 32

namespace Vault

/-- `vault.Encrypt` (crypto.go): `aes.NewCipher` (whose `KeySizeError` is the
only failure), GCM seal with the random nonce — here an explicit argument —
and `%x` formatting. -/
def Encrypt (plaintext key nonce : List Nat) : Except String String :=
  if aesKeyOk key then .ok (hexEncode (gcmSeal key nonce plaintext))
  else .error ("crypto/aes: invalid key size " ++ toString key.length)

/-- `vault.Decrypt` (crypto.go): `Sscanf("%x")` decode, `aes.NewCipher`,
nonce-size check ("ciphertext too short"), split and `gcm.Open`, with
authentication failure mapped to one opaque message. -/
def Decrypt (cipherHex : String) (key : List Nat) : Except String (List Nat) :=
  match sscanfHexBytes cipherHex with
  | .error e => .error e
  | .ok ciphertext =>
    if aesKeyOk key then
      if ciphertext.length < 12 then .error "ciphertext too short"
      else
        match gcmOpen key (ciphertext.take 12) (ciphertext.drop 12) with
        | some plaintext => .ok plaintext
        | none => .error "decryption failed (wrong key or tampered data)"
    else .error ("crypto/aes: invalid key size " ++ toString key.length)

end Vault

deriving instance DecidableEq for Except

/-- A well-formed AES word: four bytes. -/
def WordWF (x : List Nat) : Prop := x.length = 4 ∧ ∀ b ∈ x, b < 256

theorem mget_mput_self {κ ν : Type} [DecidableEq κ] (m : List (κ × ν)) (q : κ) (x : ν) :
    mget (mput m q x) q = some x := by
  induction m with
  | nil => simp [mget, mput]
  | cons e rest ih =>
    by_cases h : q = e.1
    · simp [mget, mput, h]
    · simp [mget, mput, h, ih]

theorem mget_mput_ne {κ ν : Type} [DecidableEq κ] (m : List (κ × ν)) (q r : κ) (x : ν)
    (h : r ≠ q) : mget (mput m q x) r = mget m r := by
  induction m with
  | nil => simp [mget, mput, h]
  | cons e rest ih =>
    by_cases hq : q = e.1
    · subst hq
      simp [mget, mput, h]
    · by_cases hr : r = e.1
      · simp [mget, mput, hq, hr]
      · simp [mget, mput, hq, hr, ih]

theorem mget_mdel_self {κ ν : Type} [DecidableEq κ] (m : List (κ × ν)) (q : κ) :
    mget (mdel m q) q = none := by
  induction m with
  | nil => simp [mget, mdel]
  | cons e rest ih =>
    by_cases h : q = e.1
    · subst h
      simp [mdel, ih]
    · simp [mget, mdel, h, ih]

theorem mget_mdel_ne {κ ν : Type} [DecidableEq κ] (m : List (κ × ν)) (q r : κ)
    (h : r ≠ q) : mget (mdel m q) r = mget m r := by
  induction m with
  | nil => simp [mget, mdel]
  | cons e rest ih =>
    by_cases hq : q = e.1
    · subst hq
      simp [mget, mdel, h, ih]
    · by_cases hr : r = e.1
      · simp [mget, mdel, hq, hr]
      · simp [mget, mdel, hq, hr, ih]

theorem mput_mput_self {κ ν : Type} [DecidableEq κ] (m : List (κ × ν)) (q : κ) (x y : ν) :
    mput (mput m q x) q y = mput m q y := by
  induction m with
  | nil => simp [mput]
  | cons e rest ih =>
    by_cases h : q = e.1
    · simp [mput, h]
    · simp [mput, h, ih]

theorem mdel_mdel_self {κ ν : Type} [DecidableEq κ] (m : List (κ × ν)) (q : κ) :
    mdel (mdel m q) q = mdel m q := by
  induction m with
  | nil => simp [mdel]
  | cons e rest ih =>
    by_cases h : q = e.1
    · subst h
      simp [mdel, ih]
    · simp [mdel, h, ih]

/-- C7: `Set` always succeeds (nil error), auto-vivifying missing persona and
app containers, and an immediately subsequent `Get` of the same triple
returns the value just written. -/
theorem set_get_round_trip {V : Type} (s : StoreData V) (personaID appID key : String)
    (val : V) :
    (MemStore.Set s personaID appID key val).2 = none ∧
      MemStore.Get (MemStore.Set s personaID appID key val).1 personaID appID key =
        .ok val := by
  refine ⟨rfl, ?_⟩
  simp [MemStore.Set, MemStore.Get, mget_mput_self]

/-- C5: `Delete` never reports an error, even for absent persona/app/key, and
a second identical `Delete` leaves the store state exactly as the first one
did (idempotence). -/
theorem delete_idempotent_no_error {V : Type} (s : StoreData V)
    (personaID appID key : String) :
    (MemStore.Delete s personaID appID key).2 = none ∧
      (MemStore.Delete (MemStore.Delete s personaID appID key).1 personaID appID key).1 =
        (MemStore.Delete s personaID appID key).1 := by
  unfold MemStore.Delete
  rcases hp : mget s personaID with _ | persona
  · exact ⟨rfl, by simp [hp]⟩
  · rcases ha : mget persona appID with _ | app
    · constructor <;> simp [hp, ha]
    · constructor
      · simp [hp, ha]
      · simp [hp, ha, mget_mput_self, mput_mput_self, mdel_mdel_self]

/-- C6: `Get` returns `ErrPersonaNotFound` when the persona is absent,
`ErrAppNotFound` when the persona exists but the app is absent,
`ErrKeyNotFound` when persona and app exist but the key is absent, and the
stored value otherwise. -/
theorem get_error_taxonomy {V : Type} (s : StoreData V) (personaID appID key : String) :
    (mget s personaID = none →
      MemStore.Get s personaID appID key = .error .personaNotFound) ∧
    (∀ persona, mget s personaID = some persona → mget persona appID = none →
      MemStore.Get s personaID appID key = .error .appNotFound) ∧
    (∀ persona app, mget s personaID = some persona → mget persona appID = some app →
      mget app key = none →
      MemStore.Get s personaID appID key = .error .keyNotFound) ∧
    (∀ persona app val, mget s personaID = some persona → mget persona appID = some app →
      mget app key = some val →
      MemStore.Get s personaID appID key = .ok val) := by
  refine ⟨?_, ?_, ?_, ?_⟩
  · intro hp
    simp [MemStore.Get, hp]
  · intro persona hp ha
    simp [MemStore.Get, hp, ha]
  · intro persona app hp ha hk
    simp [MemStore.Get, hp, ha, hk]
  · intro persona app val hp ha hk
    simp [MemStore.Get, hp, ha, hk]

/-- Witness for C6: on a concrete one-entry store all four cases of the
taxonomy are exercised. -/
theorem get_error_taxonomy_witness :
    (mget ([] : StoreData Nat) "p" = none ∧
      MemStore.Get ([] : StoreData Nat) "p" "a" "k" = .error .personaNotFound) ∧
    (mget ([("p", [("a", [("k", 7)])])] : StoreData Nat) "p" = some [("a", [("k", 7)])] ∧
      mget [("a", [("k", (7 : Nat))])] "b" = none ∧
      MemStore.Get ([("p", [("a", [("k", 7)])])] : StoreData Nat) "p" "b" "k" =
        .error .appNotFound) ∧
    (mget [("k", (7 : Nat))] "j" = none ∧
      MemStore.Get ([("p", [("a", [("k", 7)])])] : StoreData Nat) "p" "a" "j" =
        .error .keyNotFound) ∧
    (mget [("k", (7 : Nat))] "k" = some 7 ∧
      MemStore.Get ([("p", [("a", [("k", 7)])])] : StoreData Nat) "p" "a" "k" = .ok 7) := by
  refine ⟨⟨by decide, ?_⟩, ⟨by decide, by decide, ?_⟩, ⟨by decide, ?_⟩, ⟨by decide, ?_⟩⟩
  · exact (get_error_taxonomy ([] : StoreData Nat) "p" "a" "k").1 (by decide)
  · exact (get_error_taxonomy ([("p", [("a", [("k", 7)])])] : StoreData Nat) "p" "b" "k").2.1
      [("a", [("k", 7)])] (by decide) (by decide)
  · exact (get_error_taxonomy ([("p", [("a", [("k", 7)])])] : StoreData Nat) "p" "a" "j").2.2.1
      [("a", [("k", 7)])] [("k", 7)] (by decide) (by decide) (by decide)
  · exact (get_error_taxonomy ([("p", [("a", [("k", 7)])])] : StoreData Nat) "p" "a" "k").2.2.2
      [("a", [("k", 7)])] [("k", 7)] 7 (by decide) (by decide) (by decide)

/-- C1 counterexample: with `src = dst` the claim fails.  On the one-entry
store, `Move("p","p","a","k")` succeeds, but the key is re-installed in the
same persona, so `Get(src,app,key)` returns the old value rather than
`ErrKeyNotFound`. -/
theorem move_same_persona_counterexample :
    (MemStore.Move ([("p", [("a", [("k", 7)])])] : StoreData Nat) "p" "p" "a" "k").err =
      none ∧
    MemStore.Get
      (MemStore.Move ([("p", [("a", [("k", 7)])])] : StoreData Nat) "p" "p" "a" "k").store
      "p" "a" "k" = .ok 7 :=
  ⟨rfl, rfl⟩

/-- C1 amended: when the key is present under `src/app`, `Move` succeeds and
`Get(dst,app,key)` returns the old value; `Get(src,app,key)` returns
`ErrKeyNotFound` only when `src ≠ dst` (for `src = dst` the key keeps its old
value, by the second conjunct). -/
theorem move_transfers_value {V : Type} (s : StoreData V) (src dst app key : String)
    (v : V) (hget : MemStore.Get s src app key = .ok v) :
    (MemStore.Move s src dst app key).err = none ∧
    MemStore.Get (MemStore.Move s src dst app key).store dst app key = .ok v ∧
    (src ≠ dst →
      MemStore.Get (MemStore.Move s src dst app key).store src app key =
        .error .keyNotFound) := by
  cases hp : mget s src with
  | none => simp [MemStore.Get, hp] at hget
  | some srcP =>
    cases ha : mget srcP app with
    | none => simp [MemStore.Get, hp, ha] at hget
    | some srcA =>
      cases hk : mget srcA key with
      | none => simp [MemStore.Get, hp, ha, hk] at hget
      | some v0 =>
        have hv : v0 = v := by simpa [MemStore.Get, hp, ha, hk] using hget
        subst hv
        refine ⟨?_, ?_, ?_⟩
        · simp [MemStore.Move, hp, ha, hk]
        · simp [MemStore.Move, MemStore.Get, hp, ha, hk, mget_mput_self]
        · intro hne
          simp [MemStore.Move, MemStore.Get, hp, ha, hk, mget_mput_self,
            mget_mput_ne _ _ _ _ hne, mget_mdel_self]

/-- Witness for the amended C1 on a concrete two-persona move. -/
theorem move_transfers_value_witness :
    MemStore.Get ([("p", [("a", [("k", 5)])])] : StoreData Nat) "p" "a" "k" = .ok 5 ∧
    ((MemStore.Move ([("p", [("a", [("k", 5)])])] : StoreData Nat) "p" "q" "a" "k").err =
        none ∧
      MemStore.Get
        (MemStore.Move ([("p", [("a", [("k", 5)])])] : StoreData Nat) "p" "q" "a" "k").store
        "q" "a" "k" = .ok 5 ∧
      ("p" ≠ "q" →
        MemStore.Get
          (MemStore.Move ([("p", [("a", [("k", 5)])])] : StoreData Nat)
            "p" "q" "a" "k").store
          "p" "a" "k" = .error .keyNotFound)) :=
  ⟨rfl, move_transfers_value [("p", [("a", [("k", 5)])])] "p" "q" "a" "k" 5 rfl⟩

/-- C10: whenever `Move` returns an error, the store is returned exactly as it
was (no deletion, no auto-vivified destination) and no persistence snapshot is
dispatched. -/
theorem move_error_leaves_state {V : Type} (s : StoreData V) (src dst app key : String)
    (e : StoreErr) (he : (MemStore.Move s src dst app key).err = some e) :
    (MemStore.Move s src dst app key).store = s ∧
      (MemStore.Move s src dst app key).saves = [] := by
  cases hp : mget s src with
  | none => simp [MemStore.Move, hp]
  | some srcP =>
    cases ha : mget srcP app with
    | none => simp [MemStore.Move, hp, ha]
    | some srcA =>
      cases hk : mget srcA key with
      | none => simp [MemStore.Move, hp, ha, hk]
      | some v0 => simp [MemStore.Move, hp, ha, hk] at he

/-- Witness for C10: moving out of an absent persona errors and leaves the
empty store with no snapshots. -/
theorem move_error_leaves_state_witness :
    (MemStore.Move ([] : StoreData Nat) "p" "q" "a" "k").err = some .personaNotFound ∧
    ((MemStore.Move ([] : StoreData Nat) "p" "q" "a" "k").store = [] ∧
      (MemStore.Move ([] : StoreData Nat) "p" "q" "a" "k").saves = []) :=
  ⟨rfl, move_error_leaves_state [] "p" "q" "a" "k" .personaNotFound rfl⟩

/-- C8: on a line whose first token upper-cases to `SET`: fewer than 5 tokens
means no reply and an unchanged store; with 5 or more, tokens 4 onward are
rejoined by single spaces, a JSON parse failure replies
`ERR invalid json value` leaving the store unchanged, and a parse success
calls `Engine.Set` with tokens 1-3 and the parsed value and replies `OK`. -/
theorem router_set_command {V : Type} (c : Codec V) (st : StoreData V) (line : String)
    (cmd : String) (args : List String)
    (hparts : goFields (goTrimSpace line) = cmd :: args)
    (hcmd : goToUpper cmd = "SET") :
    (args.length < 4 → routerStep c st line = ⟨st, [], false⟩) ∧
    (∀ p a k v0 vrest, args = p :: a :: k :: v0 :: vrest →
      (c.parse (joinSpace (v0 :: vrest)) = none →
        routerStep c st line = ⟨st, ["ERR invalid json value"], false⟩) ∧
      (∀ v, c.parse (joinSpace (v0 :: vrest)) = some v →
        routerStep c st line = ⟨(MemStore.Set st p a k v).1, ["OK"], false⟩)) := by
  have hstep : routerStep c st line = routerDispatch c st "SET" (cmd :: args) := by
    simp [routerStep, hparts, hcmd]
  constructor
  · intro hlen
    rw [hstep]
    unfold routerDispatch
    rw [if_neg (by decide : ¬("SET" : String) = "GET"), if_pos rfl]
    match args, hlen with
    | [], _ => rfl
    | [_], _ => rfl
    | [_, _], _ => rfl
    | [_, _, _], _ => rfl
  · intro p a k v0 vrest harg
    subst harg
    constructor
    · intro hpar
      rw [hstep]
      unfold routerDispatch
      rw [if_neg (by decide : ¬("SET" : String) = "GET"), if_pos rfl]
      simp [hpar]
    · intro v hpar
      rw [hstep]
      unfold routerDispatch
      rw [if_neg (by decide : ¬("SET" : String) = "GET"), if_pos rfl]
      simp [hpar, MemStore.Set]

/-- Witness for C8 on the line `set p a k [1, 2]`: the value tokens are
rejoined with one space, parsed, stored via `Set`, and `OK` is replied. -/
theorem router_set_command_witness :
    goFields (goTrimSpace "set p a k [1, 2]\n") = "set" :: ["p", "a", "k", "[1,", "2]"] ∧
    goToUpper "set" = "SET" ∧
    witnessCodec.parse (joinSpace ["[1,", "2]"]) = some 12 ∧
    routerStep witnessCodec [] "set p a k [1, 2]\n" =
      ⟨(MemStore.Set [] "p" "a" "k" 12).1, ["OK"], false⟩ := by
  refine ⟨by decide, by decide, by decide, ?_⟩
  exact ((router_set_command witnessCodec [] "set p a k [1, 2]\n" "set"
      ["p", "a", "k", "[1,", "2]"] (by decide) (by decide)).2
    "p" "a" "k" "[1," ["2]"] rfl).2 12 (by decide)

theorem heapGet_append {V : Type} (h ext : Heap V) (i : Nat) (hi : i < h.length) :
    heapGet (h ++ ext) i = heapGet h i := by
  induction h generalizing i with
  | nil => simp at hi
  | cons c rest ih =>
    cases i with
    | zero => rfl
    | succ n =>
      have : n < rest.length := by simpa using hi
      simpa [heapGet] using ih n this

theorem heapGet_heapSet_ne {V : Type} (h : Heap V) (r i : Nat) (cell : AppData V)
    (hne : i ≠ r) : heapGet (heapSet h r cell) i = heapGet h i := by
  induction h generalizing r i with
  | nil => rfl
  | cons c rest ih =>
    cases r with
    | zero =>
      cases i with
      | zero => exact absurd rfl hne
      | succ n => rfl
    | succ m =>
      cases i with
      | zero => rfl
      | succ n => simpa [heapGet, heapSet] using ih m n (by omega)

theorem mget_mem {κ ν : Type} [DecidableEq κ] (m : List (κ × ν)) (q : κ) (v : ν)
    (h : mget m q = some v) : (q, v) ∈ m := by
  induction m with
  | nil => simp [mget] at h
  | cons e rest ih =>
    by_cases hq : q = e.1
    · subst hq
      simp [mget] at h
      subst h
      exact List.mem_cons_self _ _
    · simp [mget, hq] at h
      exact List.mem_cons_of_mem _ (ih h)

/-- Reads through `data` only touch heap cells below the original heap length
(by `wf`), so any heap transformation preserving those cells preserves `get`. -/
theorem hstore_get_congr {V : Type} (st : HStore V) (hwf : st.wf = true) (heap2 : Heap V)
    (hsame : ∀ i, i < st.heap.length → heapGet heap2 i = heapGet st.heap i)
    (p a k : String) :
    HStore.get ⟨heap2, st.data⟩ p a k = st.get p a k := by
  unfold HStore.get
  cases hp : mget st.data p with
  | none => rfl
  | some persona =>
    cases ha : mget persona a with
    | none => simp [ha]
    | some r =>
      have hmemp : (p, persona) ∈ st.data := mget_mem _ _ _ hp
      have hmema : (a, r) ∈ persona := mget_mem _ _ _ ha
      have hr : r < st.heap.length := by
        have h1 := (List.all_eq_true.mp hwf) _ hmemp
        have h2 := (List.all_eq_true.mp h1) _ hmema
        exact of_decide_eq_true h2
      simp [ha, hsame r hr]

/-- The heap after the `dumpApp` loop is the original heap plus freshly
allocated copy cells. -/
theorem dumpAppGo_heap_ext {V : Type} (appID : String)
    (ps : List (String × List (String × Nat))) (h : Heap V) :
    ∃ ext, (dumpAppGo appID ps h).2 = h ++ ext := by
  induction ps generalizing h with
  | nil => exact ⟨[], by simp [dumpAppGo]⟩
  | cons pe rest ih =>
    unfold dumpAppGo
    cases hr : mget pe.2 appID with
    | none => exact ih h
    | some r0 =>
      obtain ⟨ext2, hext2⟩ := ih (h ++ [heapGet h r0])
      exact ⟨heapGet h r0 :: ext2, by simp [hext2]⟩

/-- Every reference returned by the `dumpApp` loop is fresh: at or above the
length of the heap the loop started from. -/
theorem dumpAppGo_ref_fresh {V : Type} (appID : String)
    (ps : List (String × List (String × Nat))) (h : Heap V)
    (q : String × Nat) (hq : q ∈ (dumpAppGo appID ps h).1) : h.length ≤ q.2 := by
  induction ps generalizing h with
  | nil => simp [dumpAppGo] at hq
  | cons pe rest ih =>
    unfold dumpAppGo at hq
    cases hr : mget pe.2 appID with
    | none =>
      rw [hr] at hq
      exact ih h hq
    | some r0 =>
      rw [hr] at hq
      rcases List.mem_cons.mp hq with hq1 | hq2
      · subst hq1
        exact le_refl _
      · have := ih (h ++ [heapGet h r0]) hq2
        simp at this
        omega

/-- C9: the maps returned by `GetAppStore` and `DumpApp` are freshly
allocated: overwriting a returned cell with arbitrary contents changes no
subsequent `Get` observation of the store (`data`, which also drives
`GetAppStore`/`DumpApp` observations, is untouched by the mutation). -/
theorem returned_collections_isolated {V : Type} (st : HStore V) (hwf : st.wf = true) :
    (∀ p a r, (st.getAppStore p a).1 = .ok r →
      ∀ cell p2 a2 k2,
        ((st.getAppStore p a).2.mutate r cell).get p2 a2 k2 = st.get p2 a2 k2) ∧
    (∀ a pr, pr ∈ (st.dumpApp a).1 →
      ∀ cell p2 a2 k2,
        ((st.dumpApp a).2.mutate pr.2 cell).get p2 a2 k2 = st.get p2 a2 k2) := by
  constructor
  · intro p a r hcall cell p2 a2 k2
    unfold HStore.getAppStore at hcall ⊢
    cases hp : mget st.data p with
    | none => simp [hp] at hcall
    | some persona =>
      cases ha : mget persona a with
      | none => simp [hp, ha] at hcall
      | some r0 =>
        simp only [hp, ha, Except.ok.injEq] at hcall
        subst hcall
        simp only [hp, ha, HStore.mutate]
        refine hstore_get_congr st hwf _ ?_ p2 a2 k2
        intro i hi
        rw [heapGet_heapSet_ne _ _ _ _ (by omega), heapGet_append _ _ _ hi]
  · intro a pr hmem cell p2 a2 k2
    have hfresh : st.heap.length ≤ pr.2 :=
      dumpAppGo_ref_fresh a st.data st.heap pr (by simpa [HStore.dumpApp] using hmem)
    obtain ⟨ext, hext⟩ := dumpAppGo_heap_ext (V := V) a st.data st.heap
    simp only [HStore.dumpApp, HStore.mutate]
    refine hstore_get_congr st hwf _ ?_ p2 a2 k2
    intro i hi
    rw [hext, heapGet_heapSet_ne _ _ _ _ (by omega), heapGet_append _ _ _ hi]

/-- Witness for C9: on a one-cell store, mutating the copy returned by
`GetAppStore` does not change what `Get` observes. -/
theorem returned_collections_isolated_witness :
    HStore.wf (V := Nat) ⟨[[("k", 7)]], [("p", [("a", 0)])]⟩ = true ∧
    (HStore.getAppStore (V := Nat) ⟨[[("k", 7)]], [("p", [("a", 0)])]⟩ "p" "a").1 =
      .ok 1 ∧
    HStore.get
      (HStore.mutate
        (HStore.getAppStore (V := Nat) ⟨[[("k", 7)]], [("p", [("a", 0)])]⟩ "p" "a").2
        1 [("k", 99)])
      "p" "a" "k" =
      HStore.get (V := Nat) ⟨[[("k", 7)]], [("p", [("a", 0)])]⟩ "p" "a" "k" :=
  ⟨by decide, rfl,
    (returned_collections_isolated ⟨[[("k", 7)]], [("p", [("a", 0)])]⟩ (by decide)).1
      "p" "a" 1 rfl [("k", 99)] "p" "a" "k"⟩

set_option maxRecDepth 100000 in
/-- C3 counterexample: `aes.NewCipher` accepts AES-128 keys, so `Encrypt`
succeeds for a 16-byte key instead of returning an invalid-key-size error
(the ciphertext is the NIST zero-key zero-nonce empty-plaintext vector). -/
theorem encrypt_accepts_16_byte_key :
    (List.replicate 16 0).length ≠ 32 ∧
    Vault.Encrypt [] (List.replicate 16 0) (List.replicate 12 0) =
      .ok "00000000000000000000000058e2fccefa7e3061367f1d57a4e7455a" :=
  ⟨by decide, by decide⟩

/-- C3 amended: `Encrypt` returns the `crypto/aes` invalid-key-size error
exactly when the key length is none of 16, 24, 32; every AES key size is
accepted, the 32-byte one (per the spec) included. -/
theorem encrypt_key_size (p key nonce : List Nat) :
    (¬(key.length = 16 ∨ key.length = 24 ∨ key.length = 32) →
      Vault.Encrypt p key nonce =
        .error ("crypto/aes: invalid key size " ++ toString key.length)) ∧
    ((key.length = 16 ∨ key.length = 24 ∨ key.length = 32) →
      Vault.Encrypt p key nonce = .ok (hexEncode (gcmSeal key nonce p))) := by
  constructor
  · intro h
    have hb : aesKeyOk key = false := by
      simp [aesKeyOk]
      push_neg at h
      tauto
    simp [Vault.Encrypt, hb]
  · intro h
    have hb : aesKeyOk key = true := by
      simp [aesKeyOk]
      tauto
    simp [Vault.Encrypt, hb]

/-- Witness for the amended C3: an 8-byte key (the repository's own test key
`"shortkey"`) is rejected with the `crypto/aes` message, and a 32-byte key is
accepted. -/
theorem encrypt_key_size_witness :
    (¬((List.replicate 8 0).length = 16 ∨ (List.replicate 8 0).length = 24 ∨
        (List.replicate 8 0).length = 32) ∧
      Vault.Encrypt [] (List.replicate 8 0) [] =
        .error ("crypto/aes: invalid key size " ++ toString (List.replicate 8 0).length)) ∧
    (((List.replicate 32 0).length = 16 ∨ (List.replicate 32 0).length = 24 ∨
        (List.replicate 32 0).length = 32) ∧
      Vault.Encrypt [] (List.replicate 32 0) (List.replicate 12 0) =
        .ok (hexEncode (gcmSeal (List.replicate 32 0) (List.replicate 12 0) []))) :=
  ⟨⟨by decide, (encrypt_key_size [] (List.replicate 8 0) []).1 (by decide)⟩,
   ⟨by decide, (encrypt_key_size [] (List.replicate 32 0) (List.replicate 12 0)).2
      (by decide)⟩⟩

set_option maxRecDepth 100000 in
/-- C2 counterexample, refuting both halves of the claim.  The empty string
is valid hexadecimal in the claim's sense (no non-hex character, even length)
and decodes to 0 < 12 bytes, yet `Decrypt` returns the `Sscanf` EOF error,
not "ciphertext too short".  And appending the non-hex characters `zz` to a
valid ciphertext still decrypts successfully, because `fmt.Sscanf("%x")`
stops at the first non-hex character and `Sscanf` ignores trailing input —
so a non-hex input does not imply an error. -/
theorem decrypt_hex_counterexample :
    ("".data.all isHexDigit = true ∧ "".data.length % 2 = 0 ∧
      Vault.Decrypt "" (List.replicate 32 0) ≠ .error "ciphertext too short") ∧
    (("000000000000000000000000530f8afbc74536b9a963b4f1c4cb738b" ++ "zz").data.all
        isHexDigit = false ∧
      Vault.Decrypt ("000000000000000000000000530f8afbc74536b9a963b4f1c4cb738b" ++ "zz")
        (List.replicate 32 0) = .ok []) :=
  ⟨⟨by decide, by decide, by decide⟩, ⟨by decide, by decide⟩⟩

/-- C2 amended: `Decrypt` hex-decodes with `fmt.Sscanf("%x")`, which scans
the longest leading run of hex-digit pairs.  Whenever that scan fails (empty
input, no leading hex pair, or a lone trailing digit), `Decrypt` returns the
scan's error; whenever the scan succeeds with fewer than 12 (the GCM nonce
size) decoded bytes, `Decrypt` with a 32-byte key returns
"ciphertext too short".  (Non-hex characters after a complete pair run are
ignored by the scan, so they alone cause no error.) -/
theorem decrypt_scan_and_short_errors (p : String) (k : List Nat) (hk : k.length = 32) :
    (∀ e, sscanfHexBytes p = .error e → Vault.Decrypt p k = .error e) ∧
    (∀ bs, sscanfHexBytes p = .ok bs → bs.length < 12 →
      Vault.Decrypt p k = .error "ciphertext too short") := by
  have hb : aesKeyOk k = true := by
    simp [aesKeyOk, hk]
  constructor
  · intro e he
    simp [Vault.Decrypt, he]
  · intro bs hbs hlen
    simp [Vault.Decrypt, hbs, hb, hlen]

/-- Witness for the amended C2: `"00"` scans to one byte and yields
"ciphertext too short"; `"0"` fails the scan with the odd-length error, which
`Decrypt` returns unchanged. -/
theorem decrypt_scan_and_short_errors_witness :
    (List.replicate 32 0).length = 32 ∧
    sscanfHexBytes "0" = .error "unexpected EOF" ∧
    Vault.Decrypt "0" (List.replicate 32 0) = .error "unexpected EOF" ∧
    sscanfHexBytes "00" = .ok [0] ∧ [0].length < 12 ∧
    Vault.Decrypt "00" (List.replicate 32 0) = .error "ciphertext too short" :=
  ⟨by decide, by decide,
   (decrypt_scan_and_short_errors "0" (List.replicate 32 0) (by decide)).1
     "unexpected EOF" (by decide),
   by decide, by decide,
   (decrypt_scan_and_short_errors "00" (List.replicate 32 0) (by decide)).2
     [0] (by decide) (by decide)⟩

theorem natToBytes_length (n : Nat) : ∀ v, (natToBytes n v).length = n := by
  induction n with
  | zero => intro v; rfl
  | succ m ih => intro v; simp [natToBytes, ih]

theorem natToBytes_lt (n : Nat) : ∀ v, ∀ b ∈ natToBytes n v, b < 256 := by
  induction n with
  | zero => intro v b hb; simp [natToBytes] at hb
  | succ m ih =>
    intro v b hb
    simp only [natToBytes, List.mem_append, List.mem_singleton] at hb
    rcases hb with hb | hb
    · exact ih _ b hb
    · subst hb
      exact Nat.mod_lt _ (by decide)

theorem xorWord_length (a b : List Nat) : (xorWord a b).length = min a.length b.length := by
  simp [xorWord]

theorem xorWord_lt (a b : List Nat) (ha : ∀ x ∈ a, x < 256) (hb : ∀ x ∈ b, x < 256) :
    ∀ y ∈ xorWord a b, y < 256 := by
  induction a generalizing b with
  | nil => intro y hy; simp [xorWord] at hy
  | cons x rest ih =>
    intro y hy
    cases b with
    | nil => simp [xorWord] at hy
    | cons z zs =>
      simp only [xorWord, List.zipWith_cons_cons, List.mem_cons] at hy
      rcases hy with hy | hy
      · subst hy
        have h1 : x < 2 ^ 8 := ha x (List.mem_cons_self _ _)
        have h2 : z < 2 ^ 8 := hb z (List.mem_cons_self _ _)
        exact Nat.xor_lt_two_pow h1 h2
      · exact ih zs (fun u hu => ha u (List.mem_cons_of_mem _ hu))
          (fun u hu => hb u (List.mem_cons_of_mem _ hu)) y hy

theorem xorWord_xorWord (a b : List Nat) (h : a.length ≤ b.length) :
    xorWord (xorWord a b) b = a := by
  induction a generalizing b with
  | nil => simp [xorWord]
  | cons x rest ih =>
    cases b with
    | nil => simp at h
    | cons z zs =>
      simp only [xorWord, List.zipWith_cons_cons, List.cons.injEq]
      exact ⟨Nat.xor_cancel_right z x, ih zs (by simpa using h)⟩

theorem getD_lt_of_all (l : List Nat) (hl : ∀ x ∈ l, x < 256) :
    ∀ i, ∀ d, d < 256 → l.getD i d < 256 := by
  induction l with
  | nil => intro i d hd; simpa [List.getD] using hd
  | cons x rest ih =>
    intro i d hd
    cases i with
    | zero => exact hl x (List.mem_cons_self _ _)
    | succ n =>
      exact ih (fun u hu => hl u (List.mem_cons_of_mem _ hu)) n d hd

theorem getD_mem {α : Type} (l : List α) (d : α) :
    ∀ i, i < l.length → l.getD i d ∈ l := by
  induction l with
  | nil => intro i hi; simp at hi
  | cons x rest ih =>
    intro i hi
    cases i with
    | zero => exact List.mem_cons_self _ _
    | succ n =>
      exact List.mem_cons_of_mem _ (ih n (by simpa using hi))

set_option maxRecDepth 10000 in
theorem subByte_lt (b : Nat) : subByte b < 256 := by
  have hall : ∀ x ∈ sboxTable, x < 256 := by decide
  exact getD_lt_of_all sboxTable hall (b % 256) 0 (by decide)

theorem xtime_lt (b : Nat) : xtime b < 256 := Nat.mod_lt _ (by decide)

theorem rconByte_lt (n : Nat) : rconByte n < 256 := by
  cases n with
  | zero => decide
  | succ m => exact xtime_lt _

theorem subWord_wf (w : List Nat) (h : WordWF w) : WordWF (subWord w) := by
  refine ⟨by simpa [subWord] using h.1, ?_⟩
  intro b hb
  simp only [subWord, List.mem_map] at hb
  obtain ⟨x, _, hx⟩ := hb
  subst hx
  exact subByte_lt x

theorem rotWord_wf (w : List Nat) (h : WordWF w) : WordWF (rotWord w) := by
  cases w with
  | nil => simpa [rotWord] using h
  | cons a rest =>
    refine ⟨?_, ?_⟩
    · have := h.1
      simp [rotWord] at this ⊢
      omega
    · intro b hb
      simp only [rotWord, List.mem_append, List.mem_singleton] at hb
      rcases hb with hb | hb
      · exact h.2 b (List.mem_cons_of_mem _ hb)
      · subst hb
        exact h.2 _ (List.mem_cons_self _ _)

theorem xorWord_wf (a b : List Nat) (ha : WordWF a) (hb : WordWF b) :
    WordWF (xorWord a b) := by
  refine ⟨?_, xorWord_lt a b ha.2 hb.2⟩
  simp [xorWord_length, ha.1, hb.1]

theorem ksLoop_wf (nk : Nat) (hnk : 1 ≤ nk) :
    ∀ n w, w ≠ [] → (∀ x ∈ w, WordWF x) →
      (∀ x ∈ ksLoop nk n w, WordWF x) ∧ (ksLoop nk n w).length = w.length + n := by
  intro n
  induction n with
  | zero => intro w _ hw; exact ⟨hw, rfl⟩
  | succ m ih =>
    intro w hne hw
    have hlen : 0 < w.length := List.length_pos.mpr hne
    have hprev : WordWF (w.getD (w.length - 1) []) :=
      hw _ (getD_mem w [] (w.length - 1) (by omega))
    have htemp : WordWF (ksTemp nk w) := by
      unfold ksTemp
      split
      · refine xorWord_wf _ _ (subWord_wf _ (rotWord_wf _ hprev)) ⟨rfl, ?_⟩
        intro b hb
        simp only [List.mem_cons] at hb
        rcases hb with hb | hb | hb | hb | hb
        · subst hb; exact rconByte_lt _
        · subst hb; decide
        · subst hb; decide
        · subst hb; decide
        · simp at hb
      · split
        · exact subWord_wf _ hprev
        · exact hprev
    have hword : WordWF (w.getD (w.length - nk) []) :=
      hw _ (getD_mem w [] (w.length - nk) (by omega))
    have hnw : WordWF (xorWord (w.getD (w.length - nk) []) (ksTemp nk w)) :=
      xorWord_wf _ _ hword htemp
    have hall2 : ∀ x ∈ w ++ [xorWord (w.getD (w.length - nk) []) (ksTemp nk w)],
        WordWF x := by
      intro x hx
      rcases List.mem_append.mp hx with hx | hx
      · exact hw x hx
      · rw [List.mem_singleton.mp hx]
        exact hnw
    have hne2 : w ++ [xorWord (w.getD (w.length - nk) []) (ksTemp nk w)] ≠ [] := by
      simp
    have hrec := ih _ hne2 hall2
    have hstep : ksLoop nk (m + 1) w =
        ksLoop nk m (w ++ [xorWord (w.getD (w.length - nk) []) (ksTemp nk w)]) := rfl
    refine ⟨?_, ?_⟩
    · intro x hx
      exact hrec.1 x (by rw [hstep] at hx; exact hx)
    · rw [hstep, hrec.2]
      simp
      omega

theorem toWords_wf : ∀ key : List Nat, (∀ b ∈ key, b < 256) →
    (∀ x ∈ toWords key, WordWF x) ∧ (toWords key).length = key.length / 4 := by
  intro key
  induction key using toWords.induct with
  | case1 a b c d rest ih =>
    intro hb
    have hrest : ∀ u ∈ rest, u < 256 := by
      intro u hu
      exact hb u (by simp [hu])
    refine ⟨?_, ?_⟩
    · intro x hx
      simp only [toWords, List.mem_cons] at hx
      rcases hx with hx | hx
      · subst hx
        refine ⟨rfl, ?_⟩
        intro y hy
        apply hb
        simp only [List.mem_cons] at hy ⊢
        tauto
      · exact (ih hrest).1 x hx
    · have hlen := (ih hrest).2
      simp only [toWords, List.length_cons, hlen]
      omega
  | case2 key h =>
    intro _
    have hkey : toWords key = [] := by
      match key, h with
      | [], _ => rfl
      | [_], _ => rfl
      | [_, _], _ => rfl
      | [_, _, _], _ => rfl
      | a :: b :: c :: d :: rest, h2 => exact (h2 a b c d rest rfl).elim
    have hlen : key.length / 4 = 0 := by
      match key, h with
      | [], _ => rfl
      | [_], _ => simp
      | [_, _], _ => simp
      | [_, _, _], _ => simp
      | a :: b :: c :: d :: rest, h2 => exact (h2 a b c d rest rfl).elim
    refine ⟨?_, ?_⟩
    · intro x hx
      rw [hkey] at hx
      simp at hx
    · rw [hkey, hlen]
      rfl

theorem expandKey_wf (key : List Nat) (hk : key.length = 32)
    (hkb : ∀ b ∈ key, b < 256) :
    (∀ x ∈ expandKey key, WordWF x) ∧ (expandKey key).length = 60 := by
  have htw := toWords_wf key hkb
  have hlen8 : (toWords key).length = 8 := by
    rw [htw.2, hk]
  have hne : toWords key ≠ [] := by
    intro hempty
    rw [hempty] at hlen8
    simp at hlen8
  have hks := ksLoop_wf (key.length / 4) (by rw [hk]; decide)
    (4 * (key.length / 4 + 7) - key.length / 4) (toWords key) hne htw.1
  refine ⟨?_, ?_⟩
  · exact fun x hx => hks.1 x (by simpa [expandKey] using hx)
  · rw [expandKey, hks.2, hlen8, hk]

theorem flatten_len4 (ws : List (List Nat)) (h : ∀ x ∈ ws, x.length = 4) :
    ws.flatten.length = 4 * ws.length := by
  induction ws with
  | nil => rfl
  | cons x rest ih =>
    simp only [List.flatten_cons, List.length_append, List.length_cons,
      h x (List.mem_cons_self _ _), ih (fun u hu => h u (List.mem_cons_of_mem _ hu))]
    omega

theorem roundKey_wf (w : List (List Nat)) (hwf : ∀ x ∈ w, WordWF x) (r : Nat)
    (hr : 4 * r + 4 ≤ w.length) :
    (roundKey w r).length = 16 ∧ ∀ b ∈ roundKey w r, b < 256 := by
  have hsub : ∀ x ∈ (w.drop (4 * r)).take 4, WordWF x := by
    intro x hx
    exact hwf x (List.drop_subset _ _ (List.take_subset _ _ hx))
  constructor
  · rw [roundKey, flatten_len4 _ (fun x hx => (hsub x hx).1)]
    simp only [List.length_take, List.length_drop]
    omega
  · intro b hb
    rw [roundKey] at hb
    obtain ⟨x, hx, hbx⟩ := List.mem_flatten.mp hb
    exact (hsub x hx).2 b hbx

theorem subBytes_lt (s : List Nat) : ∀ y ∈ subBytes s, y < 256 := by
  intro y hy
  simp only [subBytes, List.mem_map] at hy
  obtain ⟨x, _, hx⟩ := hy
  subst hx
  exact subByte_lt x

theorem shiftRows_length (s : List Nat) : (shiftRows s).length = 16 := by
  simp [shiftRows]

theorem shiftRows_lt (s : List Nat) (hs : ∀ x ∈ s, x < 256) :
    ∀ y ∈ shiftRows s, y < 256 := by
  intro y hy
  simp only [shiftRows, List.mem_map] at hy
  obtain ⟨i, _, hi⟩ := hy
  subst hi
  exact getD_lt_of_all s hs i 0 (by decide)

theorem aesEncryptBlock_spec (key : List Nat) (hk : key.length = 32)
    (hkb : ∀ b ∈ key, b < 256) (input : List Nat) :
    (aesEncryptBlock key input).length = 16 ∧ ∀ b ∈ aesEncryptBlock key input, b < 256 := by
  have hek := expandKey_wf key hk hkb
  have hrk : (roundKey (expandKey key) (key.length / 4 + 6)).length = 16 ∧
      ∀ b ∈ roundKey (expandKey key) (key.length / 4 + 6), b < 256 := by
    refine roundKey_wf _ hek.1 _ ?_
    rw [hek.2, hk]
  constructor
  · rw [aesEncryptBlock, xorWord_length, shiftRows_length, hrk.1]
    omega
  · intro b hb
    rw [aesEncryptBlock] at hb
    exact xorWord_lt _ _ (shiftRows_lt _ (subBytes_lt _)) hrk.2 b hb

theorem gctrGo_nil (key : List Nat) : ∀ n cb, gctrGo key n cb [] = [] := by
  intro n
  induction n with
  | zero => intro cb; rfl
  | succ m ih =>
    intro cb
    simp only [gctrGo, List.take_nil, List.drop_nil, ih]
    simp [xorWord]

theorem gctrGo_length (key : List Nat) (hk : key.length = 32)
    (hkb : ∀ b ∈ key, b < 256) :
    ∀ n cb data, data.length ≤ 16 * n → (gctrGo key n cb data).length = data.length := by
  intro n
  induction n with
  | zero =>
    intro cb data hd
    have : data = [] := List.length_eq_zero.mp (by omega)
    subst this
    rfl
  | succ m ih =>
    intro cb data hd
    have hks := (aesEncryptBlock_spec key hk hkb cb).1
    simp only [gctrGo, List.length_append, xorWord_length, List.length_take, hks,
      ih (inc32 cb) (data.drop 16) (by simp [List.length_drop]; omega), List.length_drop]
    omega

theorem gctrGo_lt (key : List Nat) (hk : key.length = 32) (hkb : ∀ b ∈ key, b < 256) :
    ∀ n cb data, (∀ b ∈ data, b < 256) → ∀ y ∈ gctrGo key n cb data, y < 256 := by
  intro n
  induction n with
  | zero => intro cb data _ y hy; simp [gctrGo] at hy
  | succ m ih =>
    intro cb data hdata y hy
    simp only [gctrGo, List.mem_append] at hy
    rcases hy with hy | hy
    · exact xorWord_lt _ _ (fun u hu => hdata u (List.take_subset _ _ hu))
        (aesEncryptBlock_spec key hk hkb cb).2 y hy
    · exact ih (inc32 cb) (data.drop 16)
        (fun u hu => hdata u (List.drop_subset _ _ hu)) y hy

theorem gctrGo_invol (key : List Nat) (hk : key.length = 32)
    (hkb : ∀ b ∈ key, b < 256) :
    ∀ n cb data, data.length ≤ 16 * n →
      gctrGo key n cb (gctrGo key n cb data) = data := by
  intro n
  induction n with
  | zero =>
    intro cb data hd
    have : data = [] := List.length_eq_zero.mp (by omega)
    subst this
    rfl
  | succ m ih =>
    intro cb data hd
    have hks := aesEncryptBlock_spec key hk hkb cb
    by_cases hdl : data.length ≤ 16
    · have hdrop : data.drop 16 = [] := List.drop_of_length_le hdl
      have htake : data.take 16 = data := List.take_of_length_le hdl
      have hA : (xorWord data (aesEncryptBlock key cb)).length = data.length := by
        rw [xorWord_length, hks.1]
        omega
      simp only [gctrGo, hdrop, htake, gctrGo_nil, List.append_nil]
      rw [List.take_of_length_le (by rw [hA]; omega),
        List.drop_of_length_le (by rw [hA]; omega), gctrGo_nil, List.append_nil,
        xorWord_xorWord _ _ (by rw [hks.1]; omega)]
    · push_neg at hdl
      have hks16 := hks.1
      have htlen : (data.take 16).length = 16 := by
        simp only [List.length_take]
        omega
      simp only [gctrGo]
      set ks := aesEncryptBlock key cb with hksdef
      set A := xorWord (data.take 16) ks with hAdef
      set B := gctrGo key m (inc32 cb) (data.drop 16) with hBdef
      have hA : A.length = 16 := by
        rw [hAdef, xorWord_length, hks16, htlen]
        omega
      have ht : (A ++ B).take 16 = A := by
        rw [show (16 : Nat) = A.length from hA.symm]
        exact List.take_left A B
      have hd2 : (A ++ B).drop 16 = B := by
        rw [show (16 : Nat) = A.length from hA.symm]
        exact List.drop_left A B
      rw [ht, hd2, hAdef, xorWord_xorWord _ _ (by rw [htlen, hks16]), hBdef,
        ih (inc32 cb) (data.drop 16) (by simp only [List.length_drop]; omega)]
      exact List.take_append_drop 16 data

theorem gcmTag_spec (key nonce ct : List Nat) (hk : key.length = 32)
    (hkb : ∀ b ∈ key, b < 256) :
    (gcmTag key nonce ct).length = 16 ∧ ∀ b ∈ gcmTag key nonce ct, b < 256 := by
  have hblock := aesEncryptBlock_spec key hk hkb (j0 nonce)
  constructor
  · rw [gcmTag, xorWord_length, natToBytes_length, hblock.1]
    omega
  · intro b hb
    rw [gcmTag] at hb
    exact xorWord_lt _ _ (natToBytes_lt 16 _) hblock.2 b hb

theorem gcmCTR_length (key : List Nat) (hk : key.length = 32)
    (hkb : ∀ b ∈ key, b < 256) (nonce data : List Nat) :
    (gcmCTR key nonce data).length = data.length :=
  gctrGo_length key hk hkb _ _ data (by omega)

theorem gcmCTR_lt (key : List Nat) (hk : key.length = 32) (hkb : ∀ b ∈ key, b < 256)
    (nonce data : List Nat) (hd : ∀ b ∈ data, b < 256) :
    ∀ y ∈ gcmCTR key nonce data, y < 256 :=
  gctrGo_lt key hk hkb _ _ data hd

theorem gcmCTR_invol (key : List Nat) (hk : key.length = 32)
    (hkb : ∀ b ∈ key, b < 256) (nonce data : List Nat) :
    gcmCTR key nonce (gcmCTR key nonce data) = data := by
  have hlen := gcmCTR_length key hk hkb nonce data
  unfold gcmCTR
  unfold gcmCTR at hlen
  rw [hlen]
  exact gctrGo_invol key hk hkb _ _ data (by omega)

theorem hexDigitChar_spec : ∀ x, x < 16 →
    isHexDigit (hexDigitChar x) = true ∧ hexVal (hexDigitChar x) = x ∧
      ((hexDigitChar x = ' ' || hexDigitChar x = '\t') = false) := by decide

theorem scanHexPairs_hexChars :
    ∀ bs : List Nat, (∀ b ∈ bs, b < 256) → ∀ acc : List Nat, acc ≠ [] ∨ bs ≠ [] →
      scanHexPairs (hexChars bs) acc = .ok (acc.reverse ++ bs) := by
  intro bs
  induction bs with
  | nil =>
    intro _ acc hne
    have hacc : acc ≠ [] := by tauto
    simp [hexChars, scanHexPairs, hacc]
  | cons b rest ih =>
    intro hb acc _
    have hbb : b < 256 := hb b (List.mem_cons_self _ _)
    have h1 := hexDigitChar_spec (b / 16) (by omega)
    have h2 := hexDigitChar_spec (b % 16) (by omega)
    have hchars : hexChars (b :: rest) =
        hexDigitChar (b / 16) :: hexDigitChar (b % 16) :: hexChars rest := rfl
    rw [hchars, scanHexPairs, if_pos h1.1]
    simp only [if_pos h2.1]
    rw [h1.2.1, h2.2.1]
    have hval : b / 16 * 16 + b % 16 = b := by omega
    rw [hval]
    rw [ih (fun u hu => hb u (List.mem_cons_of_mem _ hu)) (b :: acc) (Or.inl (by simp))]
    simp

theorem sscanfHexBytes_hexEncode (bs : List Nat) (hne : bs ≠ [])
    (hb : ∀ b ∈ bs, b < 256) : sscanfHexBytes (hexEncode bs) = .ok bs := by
  match bs, hne with
  | b :: rest, _ =>
    have hbb : b < 256 := hb b (List.mem_cons_self _ _)
    have h1 := hexDigitChar_spec (b / 16) (by omega)
    have hdata : (hexEncode (b :: rest)).data =
        hexDigitChar (b / 16) :: hexDigitChar (b % 16) :: hexChars rest := rfl
    rw [sscanfHexBytes, hdata]
    rw [List.dropWhile_cons_of_neg (by simp only [h1.2.2]; simp)]
    rw [if_neg (by simp)]
    have := scanHexPairs_hexChars (b :: rest) hb [] (Or.inr (by simp))
    rw [show hexDigitChar (b / 16) :: hexDigitChar (b % 16) :: hexChars rest =
        hexChars (b :: rest) from rfl, this]
    simp

/-- C4: for every plaintext, every 32-byte key and every value of the random
12-byte nonce, `Encrypt` succeeds and `Decrypt` of its output with the same
key succeeds and returns the plaintext.  (Plaintexts and keys are byte
strings: every byte is below 256, as Go's `[]byte` guarantees.) -/
theorem vault_round_trip (p key nonce : List Nat)
    (hk : key.length = 32) (hkb : ∀ b ∈ key, b < 256)
    (hn : nonce.length = 12) (hnb : ∀ b ∈ nonce, b < 256)
    (hp : ∀ b ∈ p, b < 256) :
    Vault.Encrypt p key nonce = .ok (hexEncode (gcmSeal key nonce p)) ∧
    Vault.Decrypt (hexEncode (gcmSeal key nonce p)) key = .ok p := by
  have henc := (encrypt_key_size p key nonce).2 (Or.inr (Or.inr hk))
  refine ⟨henc, ?_⟩
  have hkok : aesKeyOk key = true := by simp [aesKeyOk, hk]
  set ct := gcmCTR key nonce p with hct
  set tg := gcmTag key nonce ct with htg
  have hseal : gcmSeal key nonce p = nonce ++ (ct ++ tg) := by
    rw [gcmSeal, ← hct, ← htg, List.append_assoc]
  have hctlen : ct.length = p.length := gcmCTR_length key hk hkb nonce p
  have hctlt : ∀ y ∈ ct, y < 256 := gcmCTR_lt key hk hkb nonce p hp
  have htglen : tg.length = 16 := (gcmTag_spec key nonce ct hk hkb).1
  have htglt : ∀ b ∈ tg, b < 256 := (gcmTag_spec key nonce ct hk hkb).2
  have hlen : (gcmSeal key nonce p).length = 12 + (ct.length + 16) := by
    rw [hseal]
    simp [List.length_append, hn, htglen]
  have hsealne : gcmSeal key nonce p ≠ [] := by
    intro hempty
    rw [hempty] at hlen
    simp at hlen
    omega
  have hsealb : ∀ b ∈ gcmSeal key nonce p, b < 256 := by
    rw [hseal]
    intro b hb
    rcases List.mem_append.mp hb with hb | hb
    · exact hnb b hb
    · rcases List.mem_append.mp hb with hb | hb
      · exact hctlt b hb
      · exact htglt b hb
  have hscan := sscanfHexBytes_hexEncode (gcmSeal key nonce p) hsealne hsealb
  have htk : (gcmSeal key nonce p).take 12 = nonce := by
    rw [hseal, show (12 : Nat) = nonce.length from hn.symm]
    exact List.take_left _ _
  have hdr : (gcmSeal key nonce p).drop 12 = ct ++ tg := by
    rw [hseal, show (12 : Nat) = nonce.length from hn.symm]
    exact List.drop_left _ _
  have hctg : (ct ++ tg).length = ct.length + 16 := by
    simp [List.length_append, htglen]
  have h1 : (ct ++ tg).take ((ct ++ tg).length - 16) = ct := by
    rw [hctg, show ct.length + 16 - 16 = ct.length by omega]
    exact List.take_left _ _
  have h2 : (ct ++ tg).drop ((ct ++ tg).length - 16) = tg := by
    rw [hctg, show ct.length + 16 - 16 = ct.length by omega]
    exact List.drop_left _ _
  have hopen : gcmOpen key nonce (ct ++ tg) = some p := by
    rw [gcmOpen, if_neg (by omega), h1, h2, if_pos htg.symm, hct,
      gcmCTR_invol key hk hkb nonce p]
  rw [Vault.Decrypt, hscan]
  simp only [hkok, if_true, if_neg (show ¬(gcmSeal key nonce p).length < 12 by omega),
    htk, hdr, hopen]

/-- Witness for C4 at a concrete plaintext, all-zero 32-byte key and all-zero
nonce. -/
theorem vault_round_trip_witness :
    ((List.replicate 32 0 : List Nat).length = 32 ∧
      (∀ b ∈ List.replicate 32 (0 : Nat), b < 256) ∧
      (List.replicate 12 0 : List Nat).length = 12 ∧
      (∀ b ∈ List.replicate 12 (0 : Nat), b < 256) ∧
      (∀ b ∈ [104, 105], b < 256)) ∧
    (Vault.Encrypt [104, 105] (List.replicate 32 0) (List.replicate 12 0) =
        .ok (hexEncode (gcmSeal (List.replicate 32 0) (List.replicate 12 0) [104, 105])) ∧
      Vault.Decrypt
        (hexEncode (gcmSeal (List.replicate 32 0) (List.replicate 12 0) [104, 105]))
        (List.replicate 32 0) = .ok [104, 105]) :=
  ⟨⟨by decide, by decide, by decide, by decide, by decide⟩,
   vault_round_trip [104, 105] (List.replicate 32 0) (List.replicate 12 0)
     (by decide) (by decide) (by decide) (by decide) (by decide)⟩
